import Mathlib

/-!
# Verification of the HQA hybrid retrieval and reranking engine

Shallow embedding of the retrieval subsystem of the HQA project
(`src/rag/text_splitter.py`, `src/rag/bm25_index.py`, `src/rag/reranker.py`,
`src/rag/retriever.py`) and proofs of the specification claims about it.

Modelling conventions:
* Python strings are `List Char`; Python float scores are modelled as `ℚ`
  (exact rational arithmetic standing in for IEEE doubles — the claims proved
  here concern orderings and rank-based formulas that are insensitive to
  rounding).
* Python exceptions are modelled with `Except (List Char)`: raising an
  exception is `Except.error msg` and normal return is `Except.ok`.
* External oracles (the vector store, the BM25 library scoring call, the
  cross-encoder model) are parameters of the embedded functions, so every
  theorem is quantified over all possible oracle behaviours.
* `list.sort(key=…, reverse=True)` / `sorted(…, key=…, reverse=True)` are
  stable descending sorts; they are modelled by a stable descending insertion
  sort (`sortDescBy`), which is extensionally the same function on every input.
-/

namespace HQA

/-! ## Python string primitives over `List Char` -/

/-- Characters removed by Python `str.strip()` (ASCII whitespace; Python also
strips a handful of rare unicode space characters, which never occur in the
inputs used here). -/
def pySpace (c : Char) : Bool :=
  c = ' ' || c = '\t' || c = '\n' || c = '\r' || c = '\x0b' || c = '\x0c'

/-- Python `str.strip()`. -/
def pyStrip (t : List Char) : List Char :=
  ((t.dropWhile pySpace).reverse.dropWhile pySpace).reverse

/-- Worker for Python `str.split(sep)`: `skip` counts separator characters
still to be consumed after a match, `acc` holds the current piece reversed. -/
def splitGo (sep : List Char) : Nat → List Char → List Char → List (List Char)
  | _, acc, [] => [acc.reverse]
  | n + 1, acc, _ :: rest => splitGo sep n acc rest
  | 0, acc, c :: rest =>
    if sep ≠ [] ∧ sep.isPrefixOf (c :: rest) then
      acc.reverse :: splitGo sep (sep.length - 1) [] rest
    else
      splitGo sep 0 (c :: acc) rest

/-- Python `text.split(sep)` for a non-empty separator: splits at each
non-overlapping occurrence of `sep`, scanning left to right. -/
def pySplit (sep t : List Char) : List (List Char) :=
  splitGo sep 0 [] t

/-- Index of the first occurrence of `sub` in `t` (`none` if absent);
an empty `sub` matches at index 0, as in Python. -/
def firstOcc (sub : List Char) : List Char → Option Nat
  | [] => if sub = [] then some 0 else none
  | c :: rest =>
    if sub.isPrefixOf (c :: rest) then some 0
    else (firstOcc sub rest).map (· + 1)

/-- Python `t.find(sub, start)`: a negative `start` counts from the end of the
string (clamped at 0, as in slicing); returns `-1` when there is no match. -/
def pyFind (t sub : List Char) (start : Int) : Int :=
  let s : Nat := if start < 0 then ((t.length : Int) + start).toNat else start.toNat
  if t.length < s then -1
  else
    match firstOcc sub (t.drop s) with
    | some p => ((s + p : Nat) : Int)
    | none => -1

/-! ## TextSplitter (`src/rag/text_splitter.py`)

`TextSplitter.split_text` and its helpers.  The class fields `chunk_size` and
`chunk_overlap` are passed explicitly; the force-split loop
`_split_by_length` only makes progress when `chunk_overlap < chunk_size`
(otherwise the Python loop diverges), so that hypothesis is carried as a
parameter `h` wherever the loop is reachable. -/

/-- A passage produced by the Chunker (`TextChunk` in the source); the
caller-supplied metadata dict is not modelled (no claim mentions it). -/
structure TextChunk where
  content : List Char
  chunk_index : Nat
  start_char : Int
  end_char : Int
deriving DecidableEq, Repr

/-- `TextSplitter._split_by_length`: force-split `t` into windows of
`cs` characters, backing the start offset up by `ov` after every full
window.  Mirrors the Python `while` loop, recursing on the text that remains
from the current start offset. -/
def splitByLength (cs ov : Nat) (h : ov < cs) (t : List Char) : List (List Char) :=
  if t.length = 0 then []
  else if t.length ≤ cs then [t]
  else t.take cs :: splitByLength cs ov h (t.drop (cs - ov))
termination_by t.length
decreasing_by simp [List.length_drop]; omega

/-- Fuel-indexed version of the `_split_by_length` loop: one unit of fuel per
iteration, returning the chunks emitted so far when the fuel runs out.  Used
to state that the loop terminates within `t.length` iterations. -/
def splitByLengthFuel (cs ov : Nat) : Nat → List Char → List (List Char)
  | _, [] => []
  | 0, _ :: _ => []
  | fuel + 1, c :: rest =>
    if (c :: rest).length ≤ cs then [c :: rest]
    else (c :: rest).take cs :: splitByLengthFuel cs ov fuel ((c :: rest).drop (cs - ov))

/-- `TextSplitter._split_recursive`: try the first separator; any piece still
longer than `chunk_size` is split recursively with the remaining separators;
with no separators left, force-split by length.  Pieces that are empty after
stripping are dropped (Python `if part.strip()`), but kept unstripped. -/
def splitRecursive (cs ov : Nat) (h : ov < cs) :
    List Char → List (List Char) → List (List Char)
  | t, [] => splitByLength cs ov h t
  | t, sep :: rest =>
    (pySplit sep t).flatMap (fun part =>
      if part.length ≤ cs then
        (if pyStrip part ≠ [] then [part] else [])
      else
        splitRecursive cs ov h part rest)

/-- Worker for `TextSplitter._merge_chunks`: greedily merge the running chunk
with the next one while the combined length (plus the joining `"\n"`) stays
within `chunk_size`; emitted chunks are stripped, and chunks that strip to the
empty string are dropped. -/
def mergeGo (cs : Nat) (cur : List Char) : List (List Char) → List (List Char)
  | [] => if pyStrip cur ≠ [] then [pyStrip cur] else []
  | c :: rest =>
    if cur.length + c.length + 1 ≤ cs then
      mergeGo cs (cur ++ '\n' :: c) rest
    else if pyStrip cur ≠ [] then
      pyStrip cur :: mergeGo cs c rest
    else
      mergeGo cs c rest

/-- `TextSplitter._merge_chunks`. -/
def mergeChunks (cs : Nat) : List (List Char) → List (List Char)
  | [] => []
  | c :: rest => mergeGo cs c rest

/-- The position-assigning loop at the end of `split_text`: each merged chunk
is located in the original text with `text.find(chunk, current_pos)` (falling
back to `current_pos` when not found), and the search offset is then
back-tracked by `chunk_overlap`.  `current_pos` is an `Int` because the
back-tracking can drive it negative in Python. -/
def buildChunks (ov : Nat) (text : List Char) :
    Nat → Int → List (List Char) → Nat → List TextChunk
  | _, _, [], _ => []
  | i, currentPos, chunkText :: rest, total =>
    let found := pyFind text chunkText currentPos
    let startPos : Int := if found = -1 then currentPos else found
    { content := chunkText
      chunk_index := i
      start_char := startPos
      end_char := startPos + chunkText.length } ::
      buildChunks ov text (i + 1) (startPos + chunkText.length - ov) rest total

/-- `TextSplitter.split_text` (metadata propagation is not modelled): empty or
whitespace-only input yields no chunks; otherwise split recursively with the
separator list, merge small pieces, and assign positions. -/
def splitText (cs ov : Nat) (h : ov < cs) (separators : List (List Char))
    (text : List Char) : List TextChunk :=
  if pyStrip text = [] then []
  else
    let chunks := splitRecursive cs ov h text separators
    let merged := mergeChunks cs chunks
    buildChunks ov text 0 0 merged merged.length

/-- The default separator list `["\n\n", "\n", ". ", " "]`. -/
def defaultSeparators : List (List Char) :=
  ["\n\n".data, "\n".data, ". ".data, " ".data]

/-- Executable statement that every pair of consecutive passages shares
`ov` characters: the last `ov` characters of each passage equal the first
`ov` characters of the next one. -/
def consecOverlapB (ov : Nat) : List (List Char) → Bool
  | [] => true
  | [_] => true
  | a :: b :: rest =>
    (a.drop (a.length - ov) == b.take ov) && consecOverlapB ov (b :: rest)

/-! ## Documents

The only metadata fields the embedded code reads are `source` and `page_num`
(`_generate_id`, `delete_by_source`, the context builders); the metadata dict
is modelled by exactly those two optional fields. -/

/-- The metadata dict of a LangChain `Document`, restricted to the keys the
engine reads. -/
structure Meta where
  source : Option (List Char)
  page_num : Option Nat
deriving DecidableEq, Repr

/-- A LangChain `Document`: page content plus metadata. -/
structure Doc where
  page_content : List Char
  metadata : Meta
deriving DecidableEq, Repr

/-- Decimal rendering of a natural number. -/
def natStr (n : Nat) : List Char := (Nat.repr n).data

/-! ## BM25 index (`src/rag/bm25_index.py`)

`BM25IndexManager.add_documents` and `_generate_id`.  Two external pieces are
parameters: `tokenize` (the `_tokenize_korean` regex tokenizer — only whether
it returns an empty token list matters to the claims proved here, so the
theorems quantify over every tokenizer, which includes the real one) and
`md5hex` (the `hashlib.md5(...).hexdigest()` of the UTF-8 bytes — a
deterministic function of the first 200 characters of the content).  The BM25
ranking structure `BM25Okapi(self._tokenized_corpus)` is opaque to the claims
and is modelled as the snapshot of the tokenized corpus it was built from. -/

/-- `BM25IndexManager._generate_id`:
`f"{source}_{page}_{md5(content[:200]).hexdigest()[:8]}"` with defaults
`"unknown"` and `0`. -/
def generateId (md5hex : List Char → List Char) (d : Doc) : List Char :=
  (d.metadata.source.getD "unknown".data) ++ "_".data
    ++ natStr (d.metadata.page_num.getD 0) ++ "_".data
    ++ (md5hex (d.page_content.take 200)).take 8

/-- An entry of the BM25 corpus (`BM25Document` in the source). -/
structure BM25Document where
  doc_id : List Char
  page_content : List Char
  metadata : Meta
  tokens : List (List Char)
deriving DecidableEq

/-- Module/instance configuration of `BM25IndexManager`: whether `rank_bm25`
is importable (`_BM25_AVAILABLE`), plus the `auto_save`/`save_interval`
constructor arguments. -/
structure BM25Config where
  available : Bool
  auto_save : Bool
  save_interval : Nat

/-- Mutable state of `BM25IndexManager`: `_corpus`, `_tokenized_corpus`,
`_indexed_ids`, `_bm25` (as the tokenized corpus it was rebuilt from, `none`
when unbuilt), `_changes_since_save`. -/
structure BM25State where
  corpus : List BM25Document
  tokenized_corpus : List (List (List Char))
  indexed_ids : List (List Char)
  bm25 : Option (List (List (List Char)))
  changes_since_save : Nat
deriving DecidableEq

/-- Accumulator of the `for doc in documents` loop in `add_documents`. -/
structure AddAcc where
  corpus : List BM25Document
  tokenized : List (List (List Char))
  ids : List (List Char)
  added : Nat
deriving DecidableEq

/-- The per-document loop of `add_documents`: skip documents whose dedup id
is already indexed, skip documents that tokenize to nothing, append the
rest. -/
def addLoop (tokenize : List Char → List (List Char)) (md5hex : List Char → List Char) :
    AddAcc → List Doc → AddAcc
  | acc, [] => acc
  | acc, d :: rest =>
    if generateId md5hex d ∈ acc.ids then addLoop tokenize md5hex acc rest
    else if tokenize d.page_content = [] then addLoop tokenize md5hex acc rest
    else
      addLoop tokenize md5hex
        { corpus := acc.corpus ++
            [⟨generateId md5hex d, d.page_content, d.metadata, tokenize d.page_content⟩]
          tokenized := acc.tokenized ++ [tokenize d.page_content]
          ids := acc.ids ++ [generateId md5hex d]
          added := acc.added + 1 } rest

/-- `BM25IndexManager._rebuild_bm25`. -/
def rebuildBM25 (available : Bool) (tokenized : List (List (List Char))) :
    Option (List (List (List Char))) :=
  if available = false ∨ tokenized = [] then none else some tokenized

/-- `BM25IndexManager.save_index`: the durable write is external; its only
state effect is resetting the change counter (and it returns early on an
empty corpus). -/
def saveIndex (st : BM25State) : BM25State :=
  if st.corpus = [] then st else { st with changes_since_save := 0 }

/-- The tail of `add_documents` after the loop: on a positive `added`,
rebuild the ranking structure, bump the change counter, and debounce-persist
when the counter reaches `save_interval`; otherwise return the state
untouched. -/
def finishAdd (cfg : BM25Config) (st : BM25State) (acc : AddAcc) : BM25State × Nat :=
  if 0 < acc.added then
    if cfg.auto_save ∧ cfg.save_interval ≤ st.changes_since_save + acc.added then
      (saveIndex ⟨acc.corpus, acc.tokenized, acc.ids, rebuildBM25 cfg.available acc.tokenized,
        st.changes_since_save + acc.added⟩, acc.added)
    else
      (⟨acc.corpus, acc.tokenized, acc.ids, rebuildBM25 cfg.available acc.tokenized,
        st.changes_since_save + acc.added⟩, acc.added)
  else (st, 0)

/-- `BM25IndexManager.add_documents`: returns the new state and
`chunks_added`. -/
def addDocuments (cfg : BM25Config) (tokenize : List Char → List (List Char))
    (md5hex : List Char → List Char) (st : BM25State) (docs : List Doc) :
    BM25State × Nat :=
  if cfg.available = false then (st, 0)
  else
    finishAdd cfg st
      (addLoop tokenize md5hex ⟨st.corpus, st.tokenized_corpus, st.indexed_ids, 0⟩ docs)

/-! ## Reciprocal Rank Fusion (`reciprocal_rank_fusion` in `bm25_index.py`) -/

/-- Documents are identified across the two result lists by the first 200
characters of their content (`doc.page_content[:200]`). -/
def contentKey (d : Doc) : List Char := d.page_content.take 200

/-- Update of the Python `doc_scores` dict: an existing key accumulates the
partial score in place (keeping the first document object and the insertion
position); a new key is appended, preserving the dict's insertion order. -/
def upsertScore (key : List Char) (d : Doc) (s : ℚ) :
    List (List Char × Doc × ℚ) → List (List Char × Doc × ℚ)
  | [] => [(key, d, s)]
  | (k', d', s') :: rest =>
    if k' = key then (k', d', s' + s) :: rest
    else (k', d', s') :: upsertScore key d s rest

/-- One `for rank, (doc, _score) in enumerate(results, 1)` pass: each document
at 1-based rank `r` contributes `weight / (k_const + r)`. -/
def rrfAddGo (w : ℚ) (kc : Nat) :
    Nat → List (Doc × ℚ) → List (List Char × Doc × ℚ) → List (List Char × Doc × ℚ)
  | _, [], m => m
  | rank, (d, _) :: rest, m =>
    rrfAddGo w kc (rank + 1) rest (upsertScore (contentKey d) d (w / ((kc : ℚ) + rank)) m)

/-- Accumulate one ranked list into the score dict, ranks starting at 1. -/
def rrfAdd (w : ℚ) (kc : Nat) (results : List (Doc × ℚ))
    (m : List (List Char × Doc × ℚ)) : List (List Char × Doc × ℚ) :=
  rrfAddGo w kc 1 results m

/-- The fully accumulated `doc_scores` dict: vector results first, then BM25
results, as in the source. -/
def rrfMap (vres bres : List (Doc × ℚ)) (kc : Nat) (vw bw : ℚ) :
    List (List Char × Doc × ℚ) :=
  rrfAdd bw kc bres (rrfAdd vw kc vres [])

/-- The fused RRF score of a content key (0 when absent). -/
def fusedScore (m : List (List Char × Doc × ℚ)) (key : List Char) : ℚ :=
  match m.find? (fun e => e.1 == key) with
  | some e => e.2.2
  | none => 0

/-- Stable insertion of `x` into a descending-sorted list: `x` goes before the
first element whose key is ≤ its own, so that elements with equal keys keep
their original relative order (Python sorts are stable). -/
def insertDescBy {α : Type} (key : α → ℚ) (x : α) : List α → List α
  | [] => [x]
  | y :: ys => if key y ≤ key x then x :: y :: ys else y :: insertDescBy key x ys

/-- Stable descending sort by a rational key — extensionally
`sorted(…, key=key, reverse=True)` / `list.sort(key=key, reverse=True)`. -/
def sortDescBy {α : Type} (key : α → ℚ) : List α → List α
  | [] => []
  | x :: xs => insertDescBy key x (sortDescBy key xs)

/-- `reciprocal_rank_fusion(vector_results, bm25_results, k, vector_weight,
bm25_weight)`: accumulate both lists into the score dict, then sort the dict
values descending by fused score. -/
def reciprocal_rank_fusion (vres bres : List (Doc × ℚ)) (kc : Nat) (vw bw : ℚ) :
    List (Doc × ℚ) :=
  sortDescBy (fun p => p.2) ((rrfMap vres bres kc vw bw).map (fun e => (e.2.1, e.2.2)))

/-- The content keys of a ranked result list, in rank order. -/
def listKeys (l : List (Doc × ℚ)) : List (List Char) := l.map (fun p => contentKey p.1)

/-! ## Reranker adapter (`src/rag/reranker.py`)

`Qwen3Reranker.rerank`.  The model itself is external: `loadResult` is the
outcome of `self.load()` (which logs and **re-raises** on failure in the
source) and `scoreBatch` is the outcome of one
`_process_inputs` + `_compute_logits` batch call.  Raising is `Except.error`.
-/

/-- `RerankResult` dataclass. -/
structure RerankResult where
  content : List Char
  score : ℚ
  original_index : Nat
  metadata : Meta
deriving DecidableEq, Repr

/-- `DEFAULT_INSTRUCTIONS` with the `.get(task_type, DEFAULT["retrieval"])`
fallback. -/
def defaultInstruction (task : List Char) : List Char :=
  if task = "qa".data then
    "Given a question, retrieve passages that contain the answer to the question".data
  else if task = "finance".data then
    "Given a financial query, retrieve relevant financial documents, reports, or news that answer the query".data
  else if task = "code".data then
    "Given a code-related query, retrieve relevant code snippets or documentation".data
  else if task = "semantic".data then
    "Given a query, retrieve semantically similar passages".data
  else
    "Given a web search query, retrieve relevant passages that answer the query".data

/-- `Qwen3Reranker._format_instruction`. -/
def formatInstruction (instruction query doc : List Char) : List Char :=
  "<Instruct>: ".data ++ instruction ++ "\n<Query>: ".data ++ query
    ++ "\n<Document>: ".data ++ doc

/-- Worker for `chunksOf`: `n` is the remaining capacity of the current batch
(held reversed in `acc`). -/
def chunkGo {α : Type} (bs : Nat) : Nat → List α → List α → List (List α)
  | _, acc, [] => [acc.reverse]
  | 0, acc, x :: xs => acc.reverse :: chunkGo bs (bs - 1) [x] xs
  | n + 1, acc, x :: xs => chunkGo bs n (x :: acc) xs

/-- `pairs[i:i+batch_size]` batching, i.e. `range(0, len(pairs), batch_size)`
for a positive `batch_size` (the source always passes 8; Python would raise on
a zero step, here `bs = 0` behaves like batches of one). -/
def chunksOf {α : Type} (bs : Nat) : List α → List (List α)
  | [] => []
  | x :: xs => chunkGo bs (bs - 1) [x] xs

/-- The batch loop of `rerank`: score every batch with the oracle and
concatenate (`all_scores.extend(scores)`); an oracle failure propagates. -/
def scoreAll (oracle : List (List Char) → Except (List Char) (List ℚ)) :
    List (List (List Char)) → Except (List Char) (List ℚ)
  | [] => .ok []
  | b :: rest => do
    let s ← oracle b
    let more ← scoreAll oracle rest
    .ok (s ++ more)

/-- The `results = [RerankResult(content=doc, score=score, original_index=idx)
for idx, (doc, score) in enumerate(zip(documents, all_scores))]` comprehension
of `rerank`. -/
def mkRerankResults (documents : List (List Char)) (allScores : List ℚ) :
    List RerankResult :=
  (documents.zip allScores).enum.map
    (fun p => RerankResult.mk p.2.1 p.2.2 p.1 ⟨none, none⟩)

/-- `Qwen3Reranker.rerank(query, documents, instruction, task_type, top_k,
…, batch_size)`: load the model (re-raising on failure), score all
(query, document) pairs in batches, pair each document with its score and
zero-based original index, sort descending by score (stable), truncate to
`top_k` when given. -/
def rerank (loadResult : Except (List Char) Unit)
    (scoreBatch : List (List Char) → Except (List Char) (List ℚ))
    (query : List Char) (documents : List (List Char))
    (instruction : Option (List Char)) (task_type : List Char)
    (top_k : Option Nat) (batch_size : Nat) : Except (List Char) (List RerankResult) := do
  let _ ← loadResult
  if documents = [] then
    return []
  else
    let inst := instruction.getD (defaultInstruction task_type)
    let pairs := documents.map (fun d => formatInstruction inst query d)
    let allScores ← scoreAll scoreBatch (chunksOf batch_size pairs)
    let sorted := sortDescBy (fun r => r.score) (mkRerankResults documents allScores)
    return (match top_k with | some tk => sorted.take tk | none => sorted)

/-! ## Retrieval orchestrator (`src/rag/retriever.py`)

`RAGRetriever.retrieve`.  The vector store (`search_with_scores`) and the BM25
search are oracles mapping the requested candidate count to a scored result
list for the query at hand. -/

/-- The retrieval-relevant configuration fields of `RAGRetriever`. -/
structure RetrieverConfig where
  retrieval_k : Nat
  rerank_top_k : Nat
  use_reranker : Bool
  use_hybrid : Bool
  bm25_weight : ℚ
  vector_weight : ℚ
  reranker_task_type : List Char
  reranker_instruction : Option (List Char)

/-- The candidate count requested from the vector index:
`search_k = self.retrieval_k if should_rerank else final_k`
(`retriever.py` line 320). -/
def searchK (cfg : RetrieverConfig) (k : Option Nat) (use_reranker : Option Bool) : Nat :=
  let final_k := k.getD cfg.rerank_top_k
  let should_rerank := use_reranker.getD cfg.use_reranker
  if should_rerank then cfg.retrieval_k else final_k

/-- The rescaling applied to fused results (`retriever.py` line 353):
`(doc, 1.0 - min(rrf_score * 100, 1.0))`, labelled in the source as
"RRF → distance-scale conversion". -/
def rescaleRRF (p : Doc × ℚ) : Doc × ℚ := (p.1, 1 - min (p.2 * 100) 1)

/-- Step 2 of `retrieve` (`retriever.py` lines 331-355): when hybrid search is
on, the BM25 library is available and the BM25 corpus is non-empty, run the
BM25 search; when it returned anything, fuse with the vector results by RRF,
truncate to `search_k` and rescale every fused score into a pseudo-distance.
Otherwise the vector results pass through unchanged. -/
def candidatePool (cfg : RetrieverConfig) (bm25Available : Bool) (bm25CorpusSize : Nat)
    (vres : List (Doc × ℚ)) (bm25Search : Nat → List (Doc × ℚ)) (search_k : Nat) :
    List (Doc × ℚ) :=
  if cfg.use_hybrid ∧ bm25Available ∧ 0 < bm25CorpusSize then
    let bres := bm25Search search_k
    if bres = [] then vres
    else
      ((reciprocal_rank_fusion vres bres 60 cfg.vector_weight cfg.bm25_weight).take
        search_k).map rescaleRRF
  else vres

/-- Fixed-point decimal rendering used for `f"{score:.3f}"`; the exact
rational stands in for the IEEE float (no claim depends on this string). -/
def fmt3 (q : ℚ) : List Char :=
  let n : Int := round (q * 1000)
  let m := n.natAbs
  let frac := natStr (m % 1000)
  (if n < 0 then ['-'] else []) ++ natStr (m / 1000)
    ++ '.' :: (List.replicate (3 - frac.length) '0' ++ frac)

/-- The per-document header line of `_build_context`. -/
def docHeaderPlain (i : Nat) (d : Doc) : List Char :=
  '\n' :: "[문서 ".data ++ natStr i ++ "] (출처: ".data
    ++ d.metadata.source.getD "unknown".data ++ ", 페이지: ".data
    ++ (match d.metadata.page_num with | some n => natStr n | none => "?".data)
    ++ ")".data

/-- The per-document header line of `_build_context_with_scores`. -/
def docHeaderScore (i : Nat) (d : Doc) (s : ℚ) : List Char :=
  '\n' :: "[문서 ".data ++ natStr i ++ "] (출처: ".data
    ++ d.metadata.source.getD "unknown".data ++ ", 페이지: ".data
    ++ (match d.metadata.page_num with | some n => natStr n | none => "?".data)
    ++ ", 관련도: ".data ++ fmt3 s ++ ")".data

/-- The `for i, doc in enumerate(text_results, 1)` body of `_build_context`. -/
def contextEntries : Nat → List Doc → List (List Char)
  | _, [] => []
  | i, d :: rest => docHeaderPlain i d :: d.page_content :: contextEntries (i + 1) rest

/-- The enumeration body of `_build_context_with_scores` (over
`zip(text_results, scores)`). -/
def contextEntriesScores : Nat → List (Doc × ℚ) → List (List Char)
  | _, [] => []
  | i, (d, s) :: rest => docHeaderScore i d s :: d.page_content :: contextEntriesScores (i + 1) rest

/-- `RAGRetriever._build_context`. -/
def buildContext (docs : List Doc) : List Char :=
  if docs = [] then []
  else List.intercalate ['\n'] ("=== 검색된 문서 ===".data :: contextEntries 1 docs)

/-- `RAGRetriever._build_context_with_scores`. -/
def buildContextWithScores (docs : List Doc) (scores : List ℚ) : List Char :=
  if docs = [] then []
  else
    List.intercalate ['\n']
      ("=== 검색된 문서 (리랭킹 적용) ===".data :: contextEntriesScores 1 (docs.zip scores))

/-- `RetrievalResult` dataclass (the fields `retrieve` populates). -/
structure RetrievalResult where
  query : List Char
  text_results : List Doc
  combined_context : List Char
  is_reranked : Bool
  scores : List ℚ
deriving DecidableEq

/-- The explicit no-matching-content context of the empty-result state. -/
def noResultsContext : List Char := "관련 문서를 찾지 못했습니다.".data

/-- Placeholder for `original_docs[rr.original_index]`; the index is proved
in-bounds (claim about `original_index`), so the placeholder is never
produced. -/
def defaultDoc : Doc := ⟨[], ⟨none, none⟩⟩

/-- `RAGRetriever.retrieve(query, k, use_reranker, task_type, instruction)`:
resolve overrides, query the vector index for `search_k` candidates, optionally
fuse with BM25, return the explicit empty-result state when no candidates
remain, otherwise rerank to `final_k` (propagating reranker exceptions — there
is no try/except in the source) or truncate to `final_k` without reranking. -/
def retrieve (cfg : RetrieverConfig) (query : List Char) (k : Option Nat)
    (use_reranker : Option Bool) (task_type : Option (List Char))
    (instruction : Option (List Char))
    (vectorSearch : Nat → List (Doc × ℚ))
    (bm25Available : Bool) (bm25CorpusSize : Nat)
    (bm25Search : Nat → List (Doc × ℚ))
    (loadResult : Except (List Char) Unit)
    (scoreBatch : List (List Char) → Except (List Char) (List ℚ)) :
    Except (List Char) RetrievalResult :=
  let final_k := k.getD cfg.rerank_top_k
  let should_rerank := use_reranker.getD cfg.use_reranker
  let task := task_type.getD cfg.reranker_task_type
  let inst := match instruction with | some s => some s | none => cfg.reranker_instruction
  let search_k := searchK cfg k use_reranker
  let vector_results :=
    candidatePool cfg bm25Available bm25CorpusSize (vectorSearch search_k) bm25Search search_k
  if vector_results = [] then
    .ok ⟨query, [], noResultsContext, false, []⟩
  else if should_rerank ∧ 0 < vector_results.length then do
    let documents := vector_results.map (fun p => p.1.page_content)
    let original_docs := vector_results.map (fun p => p.1)
    let rr ← rerank loadResult scoreBatch query documents inst task (some final_k) 8
    let reranked_docs := rr.map (fun r => original_docs.getD r.original_index defaultDoc)
    let reranked_scores := rr.map (fun r => r.score)
    .ok ⟨query, reranked_docs, buildContextWithScores reranked_docs reranked_scores,
         true, reranked_scores⟩
  else
    let text_results := (vector_results.take final_k).map (fun p => p.1)
    let scores := (vector_results.take final_k).map (fun p => 1 - p.2)
    .ok ⟨query, text_results, buildContext text_results, false, scores⟩

/-! ## Concrete fixtures for counterexamples and witnesses -/

/-- Empty metadata dict. -/
def metaNone : Meta := ⟨none, none⟩

/-- A small concrete document. -/
def docAlpha : Doc := ⟨"alpha".data, metaNone⟩

/-- A second small concrete document with different content. -/
def docBeta : Doc := ⟨"beta".data, metaNone⟩

/-- A configuration with hybrid search on and reranking off
(`retrieval_k = 20`, `rerank_top_k = 3`). -/
def cfgHybridNoRerank : RetrieverConfig :=
  ⟨20, 3, false, true, 1, 1, "finance".data, none⟩

/-- A configuration with hybrid search and reranking both on. -/
def cfgHybridRerank : RetrieverConfig :=
  ⟨20, 3, true, true, 1, 1, "finance".data, none⟩

/-- A configuration with reranking on and hybrid search off. -/
def cfgVecRerank : RetrieverConfig :=
  ⟨20, 3, true, false, 1, 1, "finance".data, none⟩

/-- A one-candidate vector result list. -/
def vresAlpha : List (Doc × ℚ) := [(docAlpha, 1/2)]

/-- A BM25 oracle returning one candidate with the same content key. -/
def bm25fAlpha : Nat → List (Doc × ℚ) := fun _ => [(docAlpha, 3)]

/-- Chunk-overlap bound used by the splitter fixtures. -/
theorem two_lt_five : (2 : Nat) < 5 := by omega

/-- Chunk-overlap bound used by the force-split fixtures. -/
theorem one_lt_three : (1 : Nat) < 3 := by omega

/-! # Theorems -/

/-! ## Helper lemmas about the splitter -/

/-- `dropWhile` never lengthens a list. -/
theorem dropWhile_length_le (p : Char → Bool) (l : List Char) :
    (l.dropWhile p).length ≤ l.length := by
  induction l with
  | nil => simp
  | cons c cs ih =>
    by_cases hc : p c
    · simp [List.dropWhile, hc]; omega
    · simp [List.dropWhile, hc]

/-- Stripping never lengthens a string. -/
theorem pyStrip_length_le (t : List Char) : (pyStrip t).length ≤ t.length := by
  unfold pyStrip
  calc ((t.dropWhile pySpace).reverse.dropWhile pySpace).reverse.length
      = ((t.dropWhile pySpace).reverse.dropWhile pySpace).length := by
        simp
    _ ≤ (t.dropWhile pySpace).reverse.length := dropWhile_length_le _ _
    _ = (t.dropWhile pySpace).length := by simp
    _ ≤ t.length := dropWhile_length_le _ _

/-- Every piece emitted by the force-split loop has length at most
`chunk_size`. -/
theorem splitByLength_length_le (cs ov : Nat) (h : ov < cs) (t : List Char) :
    ∀ x ∈ splitByLength cs ov h t, x.length ≤ cs := by
  intro x hx
  rw [splitByLength] at hx
  split at hx
  · simp at hx
  · split at hx
    · next h1 =>
      simp only [List.mem_singleton] at hx
      subst hx; exact h1
    · simp only [List.mem_cons] at hx
      rcases hx with rfl | hx
      · simp [List.length_take]
      · exact splitByLength_length_le cs ov h _ x hx
termination_by t.length
decreasing_by simp [List.length_drop]; omega

/-- Every piece emitted by the recursive separator splitting has length at
most `chunk_size`. -/
theorem splitRecursive_length_le (cs ov : Nat) (h : ov < cs) (seps : List (List Char)) :
    ∀ (t : List Char), ∀ x ∈ splitRecursive cs ov h t seps, x.length ≤ cs := by
  induction seps with
  | nil => intro t x hx; exact splitByLength_length_le cs ov h t x hx
  | cons sep rest ih =>
    intro t x hx
    rw [splitRecursive, List.mem_flatMap] at hx
    obtain ⟨part, _, hx⟩ := hx
    by_cases hlen : part.length ≤ cs
    · simp only [if_pos hlen] at hx
      split at hx
      · simp only [List.mem_singleton] at hx; subst hx; exact hlen
      · simp at hx
    · simp only [if_neg hlen] at hx
      exact ih part x hx

/-- The merge loop preserves the `chunk_size` bound. -/
theorem mergeGo_length_le (cs : Nat) :
    ∀ (l : List (List Char)) (cur : List Char), cur.length ≤ cs →
      (∀ c ∈ l, c.length ≤ cs) → ∀ x ∈ mergeGo cs cur l, x.length ≤ cs := by
  intro l
  induction l with
  | nil =>
    intro cur hcur _ x hx
    rw [mergeGo] at hx
    split at hx
    · simp only [List.mem_singleton] at hx
      subst hx; exact le_trans (pyStrip_length_le cur) hcur
    · simp at hx
  | cons c rest ih =>
    intro cur hcur hl x hx
    rw [mergeGo] at hx
    split at hx
    · next hfit =>
      refine ih (cur ++ '\n' :: c) (by simp; omega) (fun y hy => hl y (by simp [hy])) x hx
    · have hc : c.length ≤ cs := hl c (by simp)
      have hrest : ∀ y ∈ rest, y.length ≤ cs := fun y hy => hl y (by simp [hy])
      split at hx
      · simp only [List.mem_cons] at hx
        rcases hx with rfl | hx
        · exact le_trans (pyStrip_length_le cur) hcur
        · exact ih c hc hrest x hx
      · exact ih c hc hrest x hx

/-- `_merge_chunks` preserves the `chunk_size` bound. -/
theorem mergeChunks_length_le (cs : Nat) (l : List (List Char))
    (hl : ∀ c ∈ l, c.length ≤ cs) : ∀ x ∈ mergeChunks cs l, x.length ≤ cs := by
  cases l with
  | nil => simp [mergeChunks]
  | cons c rest =>
    exact mergeGo_length_le cs rest c (hl c (by simp)) (fun y hy => hl y (by simp [hy]))

/-- The position-assigning loop emits exactly the merged chunk texts as
contents. -/
theorem buildChunks_content_mem (ov : Nat) (text : List Char) :
    ∀ (merged : List (List Char)) (i : Nat) (pos : Int) (total : Nat) (ch : TextChunk),
      ch ∈ buildChunks ov text i pos merged total → ch.content ∈ merged := by
  intro merged
  induction merged with
  | nil => intro i pos total ch hch; simp [buildChunks] at hch
  | cons c rest ih =>
    intro i pos total ch hch
    rw [buildChunks] at hch
    simp only [List.mem_cons] at hch
    rcases hch with rfl | hch
    · simp
    · exact List.mem_cons_of_mem _ (ih _ _ _ ch hch)

/-! ## C8 — every emitted passage respects the `chunk_size` bound -/

/-- C8: for every input text and every passage returned by
`TextSplitter.split_text`, the passage's content length is at most
`chunk_size` (given the force-split progress condition
`chunk_overlap < chunk_size` under which the splitter is defined): recursive
separator splitting only emits pieces of length ≤ `chunk_size`, and greedy
merging only combines pieces while the combined length stays ≤ `chunk_size`. -/
theorem splitText_content_length_le (cs ov : Nat) (h : ov < cs)
    (separators : List (List Char)) (text : List Char) :
    ∀ ch ∈ splitText cs ov h separators text, ch.content.length ≤ cs := by
  intro ch hch
  unfold splitText at hch
  split at hch
  · simp at hch
  · have hmem := buildChunks_content_mem ov text _ _ _ _ ch hch
    exact mergeChunks_length_le cs _
      (splitRecursive_length_le cs ov h separators text) ch.content hmem

/-- Witness for C8 at `chunk_size = 5`, `chunk_overlap = 2`,
text `"aaa\n\nbbb"`. -/
theorem splitText_content_length_le_witness :
    (2 : Nat) < 5 ∧
    (⟨"aaa".data, 0, 0, 3⟩ : TextChunk) ∈
      splitText 5 2 two_lt_five defaultSeparators "aaa\n\nbbb".data ∧
    ("aaa".data).length ≤ 5 :=
  ⟨two_lt_five, by decide,
    splitText_content_length_le 5 2 two_lt_five defaultSeparators "aaa\n\nbbb".data
      ⟨"aaa".data, 0, 0, 3⟩ (by decide)⟩

/-! ## C9 — the force-split loop terminates when `chunk_overlap < chunk_size` -/

/-- C9: under the precondition `chunk_overlap < chunk_size`, the force-split
loop of `TextSplitter._split_by_length` always makes progress and terminates
within `length text` iterations: the fuel-indexed copy of the Python loop,
given at least `length text` fuel, computes the same total function
`splitByLength`; hence `split_text` (whose only non-structural recursion is
this loop) is total. -/
theorem splitByLength_terminates (cs ov : Nat) (h : ov < cs) (t : List Char)
    (fuel : Nat) (hf : t.length ≤ fuel) :
    splitByLengthFuel cs ov fuel t = splitByLength cs ov h t := by
  induction fuel generalizing t with
  | zero =>
    have ht : t = [] := List.length_eq_zero.mp (Nat.le_zero.mp hf)
    subst ht
    rw [splitByLength]
    simp [splitByLengthFuel]
  | succ fuel ih =>
    cases t with
    | nil => rw [splitByLength]; simp [splitByLengthFuel]
    | cons c rest =>
      rw [splitByLength]
      rw [if_neg (show ¬((c :: rest).length = 0) by simp)]
      show (if (c :: rest).length ≤ cs then [c :: rest]
        else (c :: rest).take cs :: splitByLengthFuel cs ov fuel ((c :: rest).drop (cs - ov))) = _
      by_cases hle : (c :: rest).length ≤ cs
      · rw [if_pos hle, if_pos hle]
      · have hdrop : ((c :: rest).drop (cs - ov)).length ≤ fuel := by
          simp only [List.length_drop]
          simp only [List.length_cons] at hf ⊢
          omega
        rw [if_neg hle, if_neg hle]
        exact congrArg _ (ih _ hdrop)

/-- Witness for C9 at `chunk_size = 3`, `chunk_overlap = 1`, text `"abcde"`,
fuel 9. -/
theorem splitByLength_terminates_witness :
    (1 : Nat) < 3 ∧ ("abcde".data).length ≤ 9 ∧
    splitByLengthFuel 3 1 9 "abcde".data = splitByLength 3 1 one_lt_three "abcde".data :=
  ⟨one_lt_three, by decide,
    splitByLength_terminates 3 1 one_lt_three "abcde".data 9 (by decide)⟩

/-! ## C6 — overlap between consecutive passages -/

/-- C6, as stated, is false: the claim asserts that whenever a text required
splitting, adjacent passages emitted by `split_text` share `chunk_overlap`
characters of content.  With `chunk_size = 5`, `chunk_overlap = 2` and text
`"aaa\n\nbbb"`, `split_text` emits the two passages `"aaa"` and `"bbb"`
(split at the paragraph separator), which share no characters at all. -/
theorem splitText_overlap_counterexample :
    2 ≤ (splitText 5 2 two_lt_five defaultSeparators "aaa\n\nbbb".data).length ∧
    consecOverlapB 2
      ((splitText 5 2 two_lt_five defaultSeparators "aaa\n\nbbb".data).map
        TextChunk.content) = false :=
  ⟨by decide, by decide⟩

/-- The head of a force-split result starts with the first `chunk_overlap`
characters of the text it was split from. -/
theorem splitByLength_head_take (cs ov : Nat) (h : ov < cs) (u x : List Char)
    (xs : List (List Char)) (hx : splitByLength cs ov h u = x :: xs) :
    x.take ov = u.take ov := by
  rw [splitByLength] at hx
  split at hx
  · exact absurd hx (by simp)
  · split at hx
    · rw [List.cons.injEq] at hx
      rw [hx.1]
    · rw [List.cons.injEq] at hx
      rw [← hx.1, List.take_take, min_eq_left (le_of_lt h)]

/-- C6 amended: the overlap guarantee holds exactly for the force-split path
`_split_by_length` — every pair of consecutive pieces it emits shares
`chunk_overlap` characters (the last `chunk_overlap` characters of each piece
equal the first `chunk_overlap` characters of the next), because the loop
back-tracks the start offset by `chunk_overlap`.  Passages split at
separators (and merged passages) carry no such guarantee, as the
counterexample shows. -/
theorem splitByLength_consecutive_overlap (cs ov : Nat) (h : ov < cs) (t : List Char) :
    consecOverlapB ov (splitByLength cs ov h t) = true := by
  rw [splitByLength]
  split
  · rfl
  · split
    · rfl
    · next h0 hcs =>
      have hrec := splitByLength_consecutive_overlap cs ov h (t.drop (cs - ov))
      cases hsp : splitByLength cs ov h (t.drop (cs - ov)) with
      | nil => simp [consecOverlapB]
      | cons x xs =>
        rw [hsp] at hrec
        have hxu : x.take ov = (t.drop (cs - ov)).take ov :=
          splitByLength_head_take cs ov h _ x xs hsp
        have hlt : cs ≤ t.length := by omega
        have hlen : (t.take cs).length = cs := by
          simp [List.length_take]; omega
        have hshare : (t.take cs).drop ((t.take cs).length - ov) = x.take ov := by
          rw [hlen, hxu, List.drop_take]
          congr 1
          omega
        simp only [consecOverlapB, hrec, Bool.and_true]
        exact beq_iff_eq.mpr hshare
termination_by t.length
decreasing_by simp [List.length_drop]; omega

/-- Witness for the amended C6 at `chunk_size = 3`, `chunk_overlap = 1`,
text `"abcde"`. -/
theorem splitByLength_consecutive_overlap_witness :
    (1 : Nat) < 3 ∧
    consecOverlapB 1 (splitByLength 3 1 one_lt_three "abcde".data) = true :=
  ⟨one_lt_three, splitByLength_consecutive_overlap 3 1 one_lt_three "abcde".data⟩

/-! ## Helper lemmas about the BM25 add loop -/

/-- The set of indexed ids only grows during the add loop. -/
theorem addLoop_ids_mono (tokenize : List Char → List (List Char))
    (md5hex : List Char → List Char) (docs : List Doc) :
    ∀ (acc : AddAcc) (x : List Char), x ∈ acc.ids →
      x ∈ (addLoop tokenize md5hex acc docs).ids := by
  induction docs with
  | nil => intro acc x hx; exact hx
  | cons d rest ih =>
    intro acc x hx
    rw [addLoop]
    split
    · exact ih acc x hx
    · split
      · exact ih acc x hx
      · exact ih _ x (by simp [hx])

/-- After the add loop, every document of the batch is accounted for: its
dedup id is indexed, unless it tokenizes to nothing. -/
theorem addLoop_processed (tokenize : List Char → List (List Char))
    (md5hex : List Char → List Char) (docs : List Doc) :
    ∀ (acc : AddAcc) (d : Doc), d ∈ docs →
      generateId md5hex d ∈ (addLoop tokenize md5hex acc docs).ids ∨
      tokenize d.page_content = [] := by
  induction docs with
  | nil => intro acc d hd; simp at hd
  | cons d0 rest ih =>
    intro acc d hd
    rcases List.mem_cons.mp hd with rfl | hd
    · rw [addLoop]
      split
      · next hin => exact Or.inl (addLoop_ids_mono tokenize md5hex rest acc _ hin)
      · split
        · next htok => exact Or.inr htok
        · refine Or.inl (addLoop_ids_mono tokenize md5hex rest _ _ ?_)
          simp
    · rw [addLoop]
      split
      · exact ih acc d hd
      · split
        · exact ih acc d hd
        · exact ih _ d hd

/-- When every document of the batch is already accounted for, the add loop
does nothing at all. -/
theorem addLoop_stable (tokenize : List Char → List (List Char))
    (md5hex : List Char → List Char) (docs : List Doc) :
    ∀ (acc : AddAcc),
      (∀ d ∈ docs, generateId md5hex d ∈ acc.ids ∨ tokenize d.page_content = []) →
      addLoop tokenize md5hex acc docs = acc := by
  induction docs with
  | nil => intro acc _; rfl
  | cons d0 rest ih =>
    intro acc hall
    rw [addLoop]
    have hrest : ∀ d ∈ rest, generateId md5hex d ∈ acc.ids ∨ tokenize d.page_content = [] :=
      fun d hd => hall d (by simp [hd])
    rcases hall d0 (by simp) with hin | htok
    · rw [if_pos hin]
      exact ih acc hrest
    · by_cases hin0 : generateId md5hex d0 ∈ acc.ids
      · rw [if_pos hin0]
        exact ih acc hrest
      · rw [if_neg hin0, if_pos htok]
        exact ih acc hrest

/-- The add counter never decreases during the add loop. -/
theorem addLoop_added_mono (tokenize : List Char → List (List Char))
    (md5hex : List Char → List Char) (docs : List Doc) :
    ∀ (acc : AddAcc), acc.added ≤ (addLoop tokenize md5hex acc docs).added := by
  induction docs with
  | nil => intro acc; exact le_refl _
  | cons d rest ih =>
    intro acc
    rw [addLoop]
    split
    · exact ih acc
    · split
      · exact ih acc
      · exact le_trans (by simp) (ih _)

/-- An add loop that added nothing changed nothing. -/
theorem addLoop_no_add_eq (tokenize : List Char → List (List Char))
    (md5hex : List Char → List Char) (docs : List Doc) :
    ∀ (acc : AddAcc), (addLoop tokenize md5hex acc docs).added = acc.added →
      addLoop tokenize md5hex acc docs = acc := by
  induction docs with
  | nil => intro acc _; rfl
  | cons d rest ih =>
    intro acc hsame
    rw [addLoop] at hsame ⊢
    by_cases hin : generateId md5hex d ∈ acc.ids
    · rw [if_pos hin] at hsame ⊢
      exact ih acc hsame
    · rw [if_neg hin] at hsame ⊢
      by_cases htok : tokenize d.page_content = []
      · rw [if_pos htok] at hsame ⊢
        exact ih acc hsame
      · rw [if_neg htok] at hsame ⊢
        exfalso
        have hmono := addLoop_added_mono tokenize md5hex rest
          ⟨acc.corpus ++ [⟨generateId md5hex d, d.page_content, d.metadata,
            tokenize d.page_content⟩], acc.tokenized ++ [tokenize d.page_content],
            acc.ids ++ [generateId md5hex d], acc.added + 1⟩
        have hstep : (⟨acc.corpus ++ [⟨generateId md5hex d, d.page_content, d.metadata,
            tokenize d.page_content⟩], acc.tokenized ++ [tokenize d.page_content],
            acc.ids ++ [generateId md5hex d], acc.added + 1⟩ : AddAcc).added
            = acc.added + 1 := rfl
        rw [hstep] at hmono
        omega

/-- `add_documents` on a state where every document of the batch is already
indexed (or tokenizes to nothing) returns 0 and leaves the state untouched. -/
theorem addDocuments_stable (cfg : BM25Config)
    (tokenize : List Char → List (List Char)) (md5hex : List Char → List Char)
    (st : BM25State) (docs : List Doc)
    (hall : ∀ d ∈ docs, generateId md5hex d ∈ st.indexed_ids ∨
      tokenize d.page_content = []) :
    addDocuments cfg tokenize md5hex st docs = (st, 0) := by
  unfold addDocuments
  by_cases havail : cfg.available = false
  · rw [if_pos havail]
  · rw [if_neg havail]
    rw [addLoop_stable tokenize md5hex docs _ hall]
    rfl

/-- The indexed ids never disappear across the saving tail of
`add_documents`. -/
theorem finishAdd_ids (cfg : BM25Config) (st : BM25State) (acc : AddAcc)
    (hin : 0 < acc.added) : (finishAdd cfg st acc).1.indexed_ids = acc.ids := by
  unfold finishAdd saveIndex
  rw [if_pos hin]
  split
  · split
    · rfl
    · rfl
  · rfl

/-- After `add_documents`, every document of the batch has its dedup id in the
indexed-id set, unless it tokenizes to nothing. -/
theorem addDocuments_processed (cfg : BM25Config)
    (tokenize : List Char → List (List Char)) (md5hex : List Char → List Char)
    (st : BM25State) (docs : List Doc) (havail : ¬cfg.available = false) :
    ∀ d ∈ docs,
      generateId md5hex d ∈ (addDocuments cfg tokenize md5hex st docs).1.indexed_ids ∨
      tokenize d.page_content = [] := by
  intro d hd
  unfold addDocuments
  rw [if_neg havail]
  rcases addLoop_processed tokenize md5hex docs
      ⟨st.corpus, st.tokenized_corpus, st.indexed_ids, 0⟩ d hd with hin | htok
  · left
    by_cases hadd :
        0 < (addLoop tokenize md5hex ⟨st.corpus, st.tokenized_corpus, st.indexed_ids, 0⟩ docs).added
    · rw [finishAdd_ids cfg st _ hadd]
      exact hin
    · have hzero :
          (addLoop tokenize md5hex ⟨st.corpus, st.tokenized_corpus, st.indexed_ids, 0⟩ docs).added
            = (⟨st.corpus, st.tokenized_corpus, st.indexed_ids, 0⟩ : AddAcc).added := by
        have h0 : (⟨st.corpus, st.tokenized_corpus, st.indexed_ids, 0⟩ : AddAcc).added = 0 := rfl
        omega
      have heq := addLoop_no_add_eq tokenize md5hex docs
        ⟨st.corpus, st.tokenized_corpus, st.indexed_ids, 0⟩ hzero
      rw [heq] at hin
      unfold finishAdd
      rw [if_neg hadd]
      exact hin
  · exact Or.inr htok

/-! ## C4 — idempotent indexing in the Lexical Index -/

/-- C4: adding the same document list to the BM25 index twice adds each
passage only once: the second `add_documents` call returns 0 and leaves the
state (corpus, tokenized corpus, indexed ids, built ranking structure, change
counter) unchanged — for every tokenizer and every content hash, in
particular for the real `_tokenize_korean` and `md5`, under which an
unchanged passage (same source, page number and content) deterministically
produces the same dedup key `f"{source}_{page}_{md5(content[:200])[:8]}"`. -/
theorem addDocuments_idempotent (cfg : BM25Config)
    (tokenize : List Char → List (List Char)) (md5hex : List Char → List Char)
    (st : BM25State) (docs : List Doc) :
    addDocuments cfg tokenize md5hex (addDocuments cfg tokenize md5hex st docs).1 docs =
      ((addDocuments cfg tokenize md5hex st docs).1, 0) := by
  by_cases havail : cfg.available = false
  · have h1 : addDocuments cfg tokenize md5hex st docs = (st, 0) := by
      unfold addDocuments
      rw [if_pos havail]
    rw [h1]
    unfold addDocuments
    rw [if_pos havail]
  · exact addDocuments_stable cfg tokenize md5hex _ docs
      (addDocuments_processed cfg tokenize md5hex st docs havail)

/-! ## Helper lemmas about the RRF score dict -/

/-- Reading the score dict one entry at a time. -/
theorem fusedScore_cons (k0 : List Char) (d0 : Doc) (s0 : ℚ)
    (rest : List (List Char × Doc × ℚ)) (k' : List Char) :
    fusedScore ((k0, d0, s0) :: rest) k' = if k0 = k' then s0 else fusedScore rest k' := by
  by_cases h : k0 = k'
  · unfold fusedScore
    rw [List.find?_cons_of_pos _ (by simpa using h), if_pos h]
  · unfold fusedScore
    rw [List.find?_cons_of_neg _ (by simpa using h), if_neg h]

/-- The dict update adds the partial score to exactly one key. -/
theorem fusedScore_upsert (k : List Char) (d : Doc) (s : ℚ)
    (m : List (List Char × Doc × ℚ)) (k' : List Char) :
    fusedScore (upsertScore k d s m) k' =
      if k' = k then fusedScore m k' + s else fusedScore m k' := by
  induction m with
  | nil =>
    show fusedScore [(k, d, s)] k' = _
    rw [fusedScore_cons]
    by_cases hk : k' = k
    · rw [if_pos hk.symm, if_pos hk]
      show s = 0 + s
      rw [zero_add]
    · rw [if_neg (fun h => hk h.symm), if_neg hk]
  | cons e rest ih =>
    obtain ⟨k0, d0, s0⟩ := e
    by_cases h0 : k0 = k
    · have hupd : upsertScore k d s ((k0, d0, s0) :: rest) = (k0, d0, s0 + s) :: rest := by
        unfold upsertScore
        rw [if_pos h0]
      rw [hupd, fusedScore_cons, fusedScore_cons]
      by_cases hk : k0 = k'
      · rw [if_pos hk, if_pos hk, if_pos (hk.symm.trans h0)]
      · rw [if_neg hk, if_neg hk, if_neg (fun h : k' = k => hk (h0.symm ▸ h.symm ▸ rfl))]
    · have hupd : upsertScore k d s ((k0, d0, s0) :: rest) =
          (k0, d0, s0) :: upsertScore k d s rest := by
        unfold upsertScore
        rw [if_neg h0]
        cases rest with
        | nil => rfl
        | cons e2 r2 => rfl
      rw [hupd, fusedScore_cons, fusedScore_cons, ih]
      by_cases hk : k0 = k'
      · rw [if_pos hk, if_pos hk, if_neg (fun h : k' = k => h0 (hk.trans h))]
      · rw [if_neg hk, if_neg hk]

/-- A rank pass leaves the score of a key that occurs in none of its
documents untouched. -/
theorem rrfAddGo_not_mem (w : ℚ) (kc : Nat) (res : List (Doc × ℚ)) (kb : List Char)
    (hkb : kb ∉ listKeys res) :
    ∀ (r : Nat) (m : List (List Char × Doc × ℚ)),
      fusedScore (rrfAddGo w kc r res m) kb = fusedScore m kb := by
  induction res with
  | nil => intro r m; rfl
  | cons p rest ih =>
    obtain ⟨d, s⟩ := p
    intro r m
    have hne : kb ≠ contentKey d := by
      intro h; exact hkb (by simp [listKeys, h])
    have hrest : kb ∉ listKeys rest := by
      intro h; exact hkb (by simp [listKeys] at h ⊢; exact Or.inr h)
    rw [rrfAddGo, ih hrest, fusedScore_upsert, if_neg hne]

/-- Starting at rank `r ≥ 1`, a rank pass with nonnegative weight adds at
most `w / (kc + r)` to any key (with at most one contribution per key when
the list's keys are distinct). -/
theorem rrfAddGo_le (w : ℚ) (hw : 0 ≤ w) (kc : Nat) (kb : List Char) :
    ∀ (res : List (Doc × ℚ)), (listKeys res).Nodup →
      ∀ (r : Nat), 1 ≤ r → ∀ (m : List (List Char × Doc × ℚ)),
        fusedScore (rrfAddGo w kc r res m) kb ≤ fusedScore m kb + w / ((kc : ℚ) + r) := by
  intro res
  induction res with
  | nil =>
    intro _ r hr m
    refine le_add_of_nonneg_right (div_nonneg hw ?_)
    have : (1 : ℚ) ≤ (r : ℚ) := by exact_mod_cast hr
    positivity
  | cons p rest ih =>
    obtain ⟨d, s⟩ := p
    intro hnd r hr m
    have hnd0 : (contentKey d :: listKeys rest).Nodup := hnd
    obtain ⟨hhead, hnd'⟩ := List.nodup_cons.mp hnd0
    have hpos : (0 : ℚ) < (kc : ℚ) + r := by
      have h1 : (1 : ℚ) ≤ (r : ℚ) := by exact_mod_cast hr
      positivity
    rw [rrfAddGo]
    by_cases hk : kb = contentKey d
    · have hnotin : kb ∉ listKeys rest := by
        rw [hk]
        exact hhead
      rw [rrfAddGo_not_mem w kc rest kb hnotin, fusedScore_upsert, if_pos hk]
    · have hle := ih hnd' (r + 1) (by omega) (upsertScore (contentKey d) d (w / ((kc : ℚ) + r)) m)
      rw [fusedScore_upsert, if_neg hk] at hle
      refine le_trans hle ?_
      have hmono : w / ((kc : ℚ) + (r + 1 : Nat)) ≤ w / ((kc : ℚ) + r) := by
        refine div_le_div_of_nonneg_left hw hpos ?_
        push_cast
        linarith
      linarith

/-- A rank pass whose first document has key `k` (and whose remaining
documents do not repeat `k`) adds exactly `w / (kc + r)` to `k`. -/
theorem rrfAddGo_head (w : ℚ) (kc : Nat) (d : Doc) (s : ℚ) (rest : List (Doc × ℚ))
    (hrest : contentKey d ∉ listKeys rest) (r : Nat) (m : List (List Char × Doc × ℚ)) :
    fusedScore (rrfAddGo w kc r ((d, s) :: rest) m) (contentKey d) =
      fusedScore m (contentKey d) + w / ((kc : ℚ) + r) := by
  rw [rrfAddGo, rrfAddGo_not_mem w kc rest _ hrest, fusedScore_upsert, if_pos rfl]

/-! ## C5 — RRF monotonicity -/

/-- C5: in `reciprocal_rank_fusion` with nonnegative per-list weights, a
document A ranked 1st in both input lists (each list naming each document at
most once) receives a fused RRF score at least as large as that of any
document B present in only one of the two lists — at best B is itself ranked
1st there and receives that single list's rank-1 contribution. -/
theorem rrf_first_in_both_beats_single_list
    (vres bres : List (Doc × ℚ)) (kc : Nat) (vw bw : ℚ)
    (hvw : 0 ≤ vw) (hbw : 0 ≤ bw)
    (dA dB : Doc) (sA sB : ℚ) (vtail btail : List (Doc × ℚ))
    (hv : vres = (dA, sA) :: vtail)
    (hb : bres = (dB, sB) :: btail)
    (hkeyB : contentKey dB = contentKey dA)
    (kb : List Char) (_hkb : kb ≠ contentKey dA)
    (hnv : (listKeys vres).Nodup) (hnb : (listKeys bres).Nodup)
    (hone : (kb ∈ listKeys vres ∧ kb ∉ listKeys bres) ∨
            (kb ∈ listKeys bres ∧ kb ∉ listKeys vres)) :
    fusedScore (rrfMap vres bres kc vw bw) kb ≤
      fusedScore (rrfMap vres bres kc vw bw) (contentKey dA) := by
  subst hv hb
  have hnv0 : (contentKey dA :: listKeys vtail).Nodup := hnv
  have hnb0 : (contentKey dB :: listKeys btail).Nodup := hnb
  have hvtail : contentKey dA ∉ listKeys vtail := (List.nodup_cons.mp hnv0).1
  have hbtail : contentKey dA ∉ listKeys btail := by
    rw [← hkeyB]
    exact (List.nodup_cons.mp hnb0).1
  have hpos : (0 : ℚ) < (kc : ℚ) + (1 : Nat) := by positivity
  have hvdiv : (0 : ℚ) ≤ vw / ((kc : ℚ) + (1 : Nat)) := div_nonneg hvw (le_of_lt hpos)
  have hbdiv : (0 : ℚ) ≤ bw / ((kc : ℚ) + (1 : Nat)) := div_nonneg hbw (le_of_lt hpos)
  have hA : fusedScore (rrfMap ((dA, sA) :: vtail) ((dB, sB) :: btail) kc vw bw)
      (contentKey dA) = vw / ((kc : ℚ) + (1 : Nat)) + bw / ((kc : ℚ) + (1 : Nat)) := by
    unfold rrfMap rrfAdd
    have houter := rrfAddGo_head bw kc dB sB btail (by rw [hkeyB]; exact hbtail) 1
      (rrfAddGo vw kc 1 ((dA, sA) :: vtail) [])
    rw [hkeyB] at houter
    rw [houter, rrfAddGo_head vw kc dA sA vtail hvtail 1 []]
    show (0 : ℚ) + vw / _ + bw / _ = _
    ring
  rw [hA]
  rcases hone with ⟨hinv, hninb⟩ | ⟨hinb, hninv⟩
  · have houter : fusedScore (rrfMap ((dA, sA) :: vtail) ((dB, sB) :: btail) kc vw bw) kb
        = fusedScore (rrfAdd vw kc ((dA, sA) :: vtail) []) kb := by
      unfold rrfMap rrfAdd
      exact rrfAddGo_not_mem bw kc _ kb hninb 1 _
    rw [houter]
    have hinner := rrfAddGo_le vw hvw kc kb ((dA, sA) :: vtail) hnv 1 (le_refl 1) []
    have h0 : fusedScore ([] : List (List Char × Doc × ℚ)) kb = 0 := rfl
    unfold rrfAdd
    rw [h0, zero_add] at hinner
    linarith
  · have hinner : fusedScore (rrfAdd vw kc ((dA, sA) :: vtail) []) kb = 0 := by
      unfold rrfAdd
      rw [rrfAddGo_not_mem vw kc _ kb hninv 1 []]
      rfl
    have houter := rrfAddGo_le bw hbw kc kb ((dB, sB) :: btail) hnb 1 (le_refl 1)
      (rrfAdd vw kc ((dA, sA) :: vtail) [])
    unfold rrfMap
    unfold rrfAdd at houter hinner ⊢
    rw [hinner, zero_add] at houter
    linarith

/-- Witness for C5: `docAlpha` heads both lists, `docBeta` appears only in
the vector list (at rank 2), weights 1, `k_const = 60`. -/
theorem rrf_first_in_both_beats_single_list_witness :
    (0 : ℚ) ≤ 1 ∧ contentKey docBeta ≠ contentKey docAlpha ∧
    fusedScore (rrfMap [(docAlpha, 1/2), (docBeta, 2)] [(docAlpha, 3)] 60 1 1)
        (contentKey docBeta) ≤
      fusedScore (rrfMap [(docAlpha, 1/2), (docBeta, 2)] [(docAlpha, 3)] 60 1 1)
        (contentKey docAlpha) :=
  ⟨by norm_num, by decide,
    rrf_first_in_both_beats_single_list
      [(docAlpha, 1/2), (docBeta, 2)] [(docAlpha, 3)] 60 1 1
      (by norm_num) (by norm_num)
      docAlpha docAlpha (1/2) 3 [(docBeta, 2)] [] rfl rfl rfl
      (contentKey docBeta) (by decide) (by decide) (by decide)
      (Or.inl ⟨by decide, by decide⟩)⟩

/-! ## Helper lemmas about the reranker adapter -/

/-- A failed model load propagates out of `rerank` unchanged: the source
`load()` logs and re-raises, and `rerank` calls it unguarded. -/
theorem rerank_load_error (e : List Char)
    (scoreBatch : List (List Char) → Except (List Char) (List ℚ))
    (query : List Char) (documents : List (List Char)) (instruction : Option (List Char))
    (task_type : List Char) (top_k : Option Nat) (batch_size : Nat) :
    rerank (Except.error e) scoreBatch query documents instruction task_type top_k batch_size
      = Except.error e := rfl

/-- The batcher never produces an empty batch list from a non-empty input. -/
theorem chunkGo_ne_nil {α : Type} (bs : Nat) :
    ∀ (l : List α) (n : Nat) (acc : List α), chunkGo bs n acc l ≠ [] := by
  intro l
  induction l with
  | nil => intro n acc; rw [chunkGo]; exact List.cons_ne_nil _ _
  | cons x xs ih =>
    intro n acc
    cases n with
    | zero => rw [chunkGo]; exact List.cons_ne_nil _ _
    | succ m => rw [chunkGo]; exact ih m (x :: acc)

/-- Scoring a non-empty batch list with an always-failing oracle fails. -/
theorem scoreAll_const_error (e : List Char) (bl : List (List (List Char)))
    (hne : bl ≠ []) :
    scoreAll (fun _ => Except.error e) bl = Except.error e := by
  cases bl with
  | nil => exact absurd rfl hne
  | cons b rest => rfl

/-- Insertion into a list inserts nothing new. -/
theorem mem_insertDescBy {α : Type} (key : α → ℚ) (a x : α) :
    ∀ (l : List α), x ∈ insertDescBy key a l → x = a ∨ x ∈ l := by
  intro l
  induction l with
  | nil =>
    intro h
    rw [insertDescBy] at h
    exact Or.inl (List.mem_singleton.mp h)
  | cons y ys ih =>
    intro h
    rw [insertDescBy] at h
    split at h
    · rcases List.mem_cons.mp h with rfl | h2
      · exact Or.inl rfl
      · exact Or.inr h2
    · rcases List.mem_cons.mp h with rfl | h2
      · exact Or.inr (by simp)
      · rcases ih h2 with rfl | h3
        · exact Or.inl rfl
        · exact Or.inr (by simp [h3])

/-- The stable descending sort permutes its input, so membership descends. -/
theorem mem_sortDescBy {α : Type} (key : α → ℚ) (x : α) :
    ∀ (l : List α), x ∈ sortDescBy key l → x ∈ l := by
  intro l
  induction l with
  | nil => intro h; exact absurd h (by rw [sortDescBy]; simp)
  | cons y ys ih =>
    intro h
    rw [sortDescBy] at h
    rcases mem_insertDescBy key y x _ h with rfl | h2
    · exact List.mem_cons_self _ _
    · exact List.mem_cons_of_mem _ (ih h2)

/-- Every constructed `RerankResult` carries a valid zero-based index into
`documents` and the document content at that index. -/
theorem mkRerankResults_spec (documents : List (List Char)) (allScores : List ℚ) :
    ∀ r ∈ mkRerankResults documents allScores,
      r.original_index < documents.length ∧
      documents[r.original_index]? = some r.content := by
  intro r hr
  unfold mkRerankResults at hr
  rw [List.mem_map] at hr
  obtain ⟨p, hp, rfl⟩ := hr
  obtain ⟨i, d0, s0⟩ := p
  have hget : (documents.zip allScores)[i]? = some (d0, s0) :=
    List.mem_enum_iff_getElem?.mp hp
  have hzip := (List.getElem?_zip_eq_some.mp hget).1
  obtain ⟨hlt, _⟩ := List.getElem?_eq_some.mp hzip
  exact ⟨hlt, hzip⟩

/-! ## C2 — failure behaviour of the reranker adapter -/

/-- C2, as stated, is false: when the reranking oracle is unavailable (the
model load fails), `Qwen3Reranker.rerank` does not return a `None`/failure
value to its caller — the unguarded `self.load()` re-raises, and the
exception propagates out of `rerank` (here: the `Except.error` result at a
concrete failing load). -/
theorem rerank_raises_counterexample :
    rerank (Except.error "model load failed".data) (fun _ => Except.ok []) "q".data
      ["doc".data] none "retrieval".data none 8
      = Except.error "model load failed".data ∧
    (rerank (Except.error "model load failed".data) (fun _ => Except.ok []) "q".data
      ["doc".data] none "retrieval".data none 8).isOk = false :=
  ⟨rfl, rfl⟩

/-- C2 amended: if the reranking oracle is unavailable or errors, `rerank`
propagates the exception to its caller (it does not return a failure value):
a failed `load()` propagates out of `rerank`, a failed batch scoring call
propagates out of `rerank`, and the orchestrator's `retrieve` (which calls
`rerank` with no try/except) propagates it in turn instead of falling back. -/
theorem rerank_propagates_failure :
    (∀ (e : List Char) (scoreBatch : List (List Char) → Except (List Char) (List ℚ))
        (query : List Char) (documents : List (List Char))
        (instruction : Option (List Char)) (task_type : List Char)
        (top_k : Option Nat) (batch_size : Nat),
      rerank (Except.error e) scoreBatch query documents instruction task_type
        top_k batch_size = Except.error e) ∧
    (∀ (e : List Char) (query : List Char) (documents : List (List Char))
        (instruction : Option (List Char)) (task_type : List Char)
        (top_k : Option Nat) (batch_size : Nat), documents ≠ [] →
      rerank (Except.ok ()) (fun _ => Except.error e) query documents instruction
        task_type top_k batch_size = Except.error e) ∧
    (∀ (e : List Char) (cfg : RetrieverConfig) (query : List Char) (k : Option Nat)
        (task_type instruction : Option (List Char)) (vectorSearch : Nat → List (Doc × ℚ))
        (bm25Available : Bool) (bm25CorpusSize : Nat) (bm25Search : Nat → List (Doc × ℚ))
        (scoreBatch : List (List Char) → Except (List Char) (List ℚ)),
      cfg.use_hybrid = false →
      vectorSearch (searchK cfg k (some true)) ≠ [] →
      retrieve cfg query k (some true) task_type instruction vectorSearch
        bm25Available bm25CorpusSize bm25Search (Except.error e) scoreBatch
        = Except.error e) := by
  refine ⟨fun e sb q docs i t tk bs => rerank_load_error e sb q docs i t tk bs, ?_, ?_⟩
  · intro e q docs i t tk bs hne
    cases docs with
    | nil => exact absurd rfl hne
    | cons d ds =>
      simp only [rerank, List.map_cons, chunksOf]
      rw [if_neg (by simp)]
      rw [scoreAll_const_error e _ (chunkGo_ne_nil bs _ _ _)]
      rfl
  · intro e cfg q k tt it f avail size bsearch sb hh hne
    have hpool : candidatePool cfg avail size (f (searchK cfg k (some true))) bsearch
        (searchK cfg k (some true)) = f (searchK cfg k (some true)) := by
      unfold candidatePool
      rw [if_neg]
      intro hc
      rw [hh] at hc
      exact Bool.false_ne_true hc.1
    simp only [retrieve]
    rw [hpool, if_neg hne, if_pos ⟨rfl, List.length_pos.mpr hne⟩,
      rerank_load_error]
    rfl

/-- Witness for the amended C2 at concrete failing oracles. -/
theorem rerank_propagates_failure_witness :
    rerank (Except.error "x".data) (fun _ => Except.ok []) "q".data ["d".data] none
      "finance".data (some 3) 8 = Except.error "x".data ∧
    rerank (Except.ok ()) (fun _ => Except.error "y".data) "q".data ["d".data] none
      "finance".data (some 3) 8 = Except.error "y".data ∧
    retrieve cfgVecRerank "q".data none none none none (fun _ => [(docAlpha, 1/2)])
      false 0 (fun _ => []) (Except.error "z".data) (fun _ => Except.ok [])
      = Except.error "z".data :=
  ⟨rerank_propagates_failure.1 "x".data (fun _ => Except.ok []) "q".data ["d".data]
      none "finance".data (some 3) 8,
    rerank_propagates_failure.2.1 "y".data "q".data ["d".data] none "finance".data
      (some 3) 8 (by decide),
    rerank_propagates_failure.2.2 "z".data cfgVecRerank "q".data none none none
      (fun _ => [(docAlpha, 1/2)]) false 0 (fun _ => []) (fun _ => Except.ok [])
      rfl (List.cons_ne_nil _ _)⟩

/-! ## C10 — reranker results index safely into the input documents -/

/-- C10: every `RerankResult` returned by a successful `rerank` call has an
`original_index` that is a valid zero-based index into the input `documents`
list, and its `content` equals `documents[original_index]` — so a caller
indexing a parallel list by `original_index` (as `retrieve` does with
`original_docs`) stays in bounds. -/
theorem rerank_original_index_valid
    (loadResult : Except (List Char) Unit)
    (scoreBatch : List (List Char) → Except (List Char) (List ℚ))
    (query : List Char) (documents : List (List Char)) (instruction : Option (List Char))
    (task_type : List Char) (top_k : Option Nat) (batch_size : Nat)
    (res : List RerankResult)
    (hok : rerank loadResult scoreBatch query documents instruction task_type top_k
      batch_size = Except.ok res) :
    ∀ r ∈ res, r.original_index < documents.length ∧
      documents[r.original_index]? = some r.content := by
  intro r hr
  cases loadResult with
  | error e =>
    rw [rerank_load_error] at hok
    exact absurd hok (by simp)
  | ok u =>
    cases u
    simp only [rerank] at hok
    cases documents with
    | nil =>
      have h2 : Except.ok ([] : List RerankResult) = Except.ok res := hok
      injection h2 with h3
      subst h3
      exact absurd hr (by simp)
    | cons d ds =>
      rw [if_neg (by simp)] at hok
      cases hs : scoreAll scoreBatch (chunksOf batch_size
          ((d :: ds).map (fun dd => formatInstruction
            (instruction.getD (defaultInstruction task_type)) query dd))) with
      | error e =>
        rw [hs] at hok
        have h2 : (Except.error e : Except (List Char) (List RerankResult))
            = Except.ok res := hok
        exact absurd h2 (by simp)
      | ok allScores =>
        rw [hs] at hok
        have hmem : r ∈ sortDescBy (fun rr => rr.score)
            (mkRerankResults (d :: ds) allScores) := by
          cases top_k with
          | none =>
            have h2 : Except.ok (sortDescBy (fun rr => rr.score)
                (mkRerankResults (d :: ds) allScores)) = Except.ok res := hok
            injection h2 with h3
            rw [← h3] at hr
            exact hr
          | some tk =>
            have h2 : Except.ok ((sortDescBy (fun rr => rr.score)
                (mkRerankResults (d :: ds) allScores)).take tk) = Except.ok res := hok
            injection h2 with h3
            rw [← h3] at hr
            exact List.take_subset tk _ hr
        exact mkRerankResults_spec (d :: ds) allScores r
          (mem_sortDescBy (fun rr => rr.score) r _ hmem)

/-- Witness for C10: a concrete successful rerank of two documents with
constant integer scores. -/
theorem rerank_original_index_valid_witness :
    rerank (Except.ok ()) (fun b => Except.ok (b.map (fun _ => (1 : ℚ)))) "q".data
      ["x".data, "y".data] none "finance".data none 8
      = Except.ok [⟨"x".data, 1, 0, ⟨none, none⟩⟩, ⟨"y".data, 1, 1, ⟨none, none⟩⟩] ∧
    ((0 : Nat) < 2 ∧ ["x".data, "y".data][(0 : Nat)]? = some "x".data) := by
  constructor
  · rfl
  · exact rerank_original_index_valid (Except.ok ())
      (fun b => Except.ok (b.map (fun _ => (1 : ℚ)))) "q".data ["x".data, "y".data]
      none "finance".data none 8
      [⟨"x".data, 1, 0, ⟨none, none⟩⟩, ⟨"y".data, 1, 1, ⟨none, none⟩⟩]
      (by rfl) ⟨"x".data, 1, 0, ⟨none, none⟩⟩ (by simp)

/-! ## C7 — retrieval on an empty, never-indexed corpus -/

/-- C7: calling `retrieve` on an empty, never-indexed corpus (the vector
search returns no candidates and the BM25 corpus is empty) returns — without
raising — the explicit empty-result state: no results, `is_reranked = false`,
and the explicit no-matching-content context string
`"관련 문서를 찾지 못했습니다."`. -/
theorem retrieve_empty_corpus
    (cfg : RetrieverConfig) (query : List Char) (k : Option Nat) (ur : Option Bool)
    (tt it : Option (List Char)) (vectorSearch : Nat → List (Doc × ℚ)) (avail : Bool)
    (bm25Search : Nat → List (Doc × ℚ)) (loadResult : Except (List Char) Unit)
    (scoreBatch : List (List Char) → Except (List Char) (List ℚ))
    (hvec : vectorSearch (searchK cfg k ur) = []) :
    retrieve cfg query k ur tt it vectorSearch avail 0 bm25Search loadResult scoreBatch
      = Except.ok ⟨query, [], noResultsContext, false, []⟩ := by
  have hpool : candidatePool cfg avail 0 (vectorSearch (searchK cfg k ur)) bm25Search
      (searchK cfg k ur) = [] := by
    unfold candidatePool
    rw [if_neg (fun hc => absurd hc.2.2 (lt_irrefl 0)), hvec]
  simp only [retrieve]
  rw [hpool, if_pos rfl]

/-- Witness for C7 on a fully concrete empty corpus. -/
theorem retrieve_empty_corpus_witness :
    ((fun _ => []) : Nat → List (Doc × ℚ)) (searchK cfgHybridRerank none none) = [] ∧
    retrieve cfgHybridRerank "q".data none none none none (fun _ => []) true 0
      (fun _ => []) (Except.ok ()) (fun _ => Except.ok [])
      = Except.ok ⟨"q".data, [], noResultsContext, false, []⟩ :=
  ⟨rfl, retrieve_empty_corpus cfgHybridRerank "q".data none none none none
    (fun _ => []) true (fun _ => []) (Except.ok ()) (fun _ => Except.ok []) rfl⟩

/-! ## C3 — the effective vector-search pool size -/

/-- C3, as stated, is false: the claim says the pool size requested from the
vector index equals `retrieval_k` whenever reranking *or hybrid search* is
enabled.  In the source (`retriever.py` line 320) hybrid search plays no
role: with reranking off, hybrid on, `retrieval_k = 20` and a requested
`k = 1`, `search_k` is 1, not 20. -/
theorem searchK_counterexample :
    cfgHybridNoRerank.use_hybrid = true ∧
    cfgHybridNoRerank.retrieval_k = 20 ∧
    searchK cfgHybridNoRerank (some 1) none = 1 ∧
    searchK cfgHybridNoRerank (some 1) none ≠ cfgHybridNoRerank.retrieval_k :=
  ⟨rfl, rfl, rfl, by decide⟩

/-- C3 amended: the candidate count requested from the vector index equals
`retrieval_k` exactly when reranking is effectively enabled (the
`use_reranker` override when given, else the configured default) and equals
the requested final `k` (default `rerank_top_k`) otherwise; hybrid search
does not influence it.  `retrieve` consults the vector oracle only at that
pool size: two vector oracles agreeing there make `retrieve` agree
entirely. -/
theorem searchK_spec (cfg : RetrieverConfig) (k : Option Nat) (ur : Option Bool) :
    (ur.getD cfg.use_reranker = true → searchK cfg k ur = cfg.retrieval_k) ∧
    (ur.getD cfg.use_reranker = false → searchK cfg k ur = k.getD cfg.rerank_top_k) ∧
    (∀ (query : List Char) (tt it : Option (List Char))
        (f g : Nat → List (Doc × ℚ)) (avail : Bool) (size : Nat)
        (bm25Search : Nat → List (Doc × ℚ)) (loadResult : Except (List Char) Unit)
        (scoreBatch : List (List Char) → Except (List Char) (List ℚ)),
      f (searchK cfg k ur) = g (searchK cfg k ur) →
      retrieve cfg query k ur tt it f avail size bm25Search loadResult scoreBatch =
        retrieve cfg query k ur tt it g avail size bm25Search loadResult scoreBatch) := by
  refine ⟨?_, ?_, ?_⟩
  · intro h
    simp only [searchK]
    rw [h]
    simp
  · intro h
    simp only [searchK]
    rw [h]
    simp
  · intro query tt it f g avail size bm25Search loadResult scoreBatch hfg
    simp only [retrieve]
    rw [hfg]

/-- Witness for the amended C3: with reranking enabled the pool size is 20,
and `retrieve` only consults the vector oracle at the effective pool size. -/
theorem searchK_spec_witness :
    searchK cfgHybridRerank (some 1) none = cfgHybridRerank.retrieval_k ∧
    retrieve cfgHybridNoRerank "q".data (some 1) none none none (fun _ => []) true 0
      (fun _ => []) (Except.ok ()) (fun _ => Except.ok []) =
    retrieve cfgHybridNoRerank "q".data (some 1) none none none (fun _ => []) true 0
      (fun _ => []) (Except.ok ()) (fun _ => Except.ok []) :=
  ⟨(searchK_spec cfgHybridRerank (some 1) none).1 rfl,
    (searchK_spec cfgHybridNoRerank (some 1) none).2.2 "q".data none none
      (fun _ => []) (fun _ => []) true 0 (fun _ => []) (Except.ok ())
      (fun _ => Except.ok []) rfl⟩

/-! ## C1 — fused RRF scores are rescaled before downstream consumption -/

/-- C1, as stated, is false: when hybrid fusion runs, the fused RRF scores
are *not* kept as rank-based scores for the downstream reranking/truncation
stages — `retrieve` (line 353) rescales each fused score `s` into a
pseudo-distance `1 - min(s * 100, 1)`.  At a concrete one-document corpus the
candidate pool differs from the truncated fusion output. -/
theorem candidatePool_keeps_rrf_counterexample :
    cfgHybridNoRerank.use_hybrid = true ∧
    bm25fAlpha 5 ≠ [] ∧
    candidatePool cfgHybridNoRerank true 1 vresAlpha bm25fAlpha 5 ≠
      (reciprocal_rank_fusion vresAlpha (bm25fAlpha 5) 60
        cfgHybridNoRerank.vector_weight cfgHybridNoRerank.bm25_weight).take 5 := by
  refine ⟨rfl, by decide, ?_⟩
  intro heq
  have hsc := congrArg (fun l => (l.headD (docAlpha, 37)).2) heq
  simp only [candidatePool, reciprocal_rank_fusion, rrfMap, rrfAdd, rrfAddGo,
    upsertScore, sortDescBy, insertDescBy, rescaleRRF, vresAlpha, bm25fAlpha,
    cfgHybridNoRerank, List.map_cons, List.map_nil] at hsc
  norm_num [min_def] at hsc
  rw [rescaleRRF] at hsc
  norm_num [min_def] at hsc

/-- C1 amended: when hybrid fusion runs (hybrid enabled, BM25 available with
a non-empty corpus, and BM25 returning results), the candidate pool consumed
by the downstream reranking/truncation stages is the RRF fusion output
truncated to `search_k` with every fused score `s` rescaled into the
pseudo-distance `1 - min(s * 100, 1)` (the "RRF → distance-scale conversion"
of `retriever.py` line 353). -/
theorem candidatePool_rescales_rrf
    (cfg : RetrieverConfig) (avail : Bool) (size : Nat) (vres : List (Doc × ℚ))
    (bm25Search : Nat → List (Doc × ℚ)) (search_k : Nat)
    (hh : cfg.use_hybrid = true) (ha : avail = true) (hs : 0 < size)
    (hb : bm25Search search_k ≠ []) :
    candidatePool cfg avail size vres bm25Search search_k =
      ((reciprocal_rank_fusion vres (bm25Search search_k) 60 cfg.vector_weight
        cfg.bm25_weight).take search_k).map rescaleRRF := by
  unfold candidatePool
  rw [if_pos ⟨hh, by rw [ha], hs⟩, if_neg hb]

/-- Witness for the amended C1 at the concrete one-document corpus. -/
theorem candidatePool_rescales_rrf_witness :
    cfgHybridNoRerank.use_hybrid = true ∧ bm25fAlpha 5 ≠ [] ∧
    candidatePool cfgHybridNoRerank true 1 vresAlpha bm25fAlpha 5 =
      ((reciprocal_rank_fusion vresAlpha (bm25fAlpha 5) 60
        cfgHybridNoRerank.vector_weight cfgHybridNoRerank.bm25_weight).take 5).map
        rescaleRRF :=
  ⟨rfl, by decide,
    candidatePool_rescales_rrf cfgHybridNoRerank true 1 vresAlpha bm25fAlpha 5
      rfl rfl (by omega) (by decide)⟩

end HQA
